import Mathlib

/-!
Verification of the core game logic of red_blue_nim_gui.py (Red-Blue Nim).

The Python source is shallowly embedded below:

* `State`, `Move` embed the dataclasses of the same names.
* `legal_moves`, `apply`, `ends_immediately`, `terminal_value_from_mover`,
  `terminal_value_from_next` embed the methods of class `Rules`; the variant
  string validated in `Rules.__init__` is embedded by the enumeration
  `Variant` together with the constructor model `mk_rules`.
* `is_winning` and `best_move` embed the memoized methods of class `Solver`.
  The memo dictionary `self.memo : Dict[Tuple[int,int], bool]` is embedded as
  an association list threaded through the computation (lookup returns the
  most recently inserted binding for a key, matching dictionary semantics
  since every insertion for a key carries the same value).  The unbounded
  Python recursion is embedded with a fuel argument; the wrappers pass fuel
  `red + blue + 1`, which is shown sufficient because every move strictly
  decreases `red + blue`.
* `play_n` embeds the optimal-play loop of `NimApp.on_autoplay` /
  `NimApp.apply_move` restricted to the pile state: repeatedly apply the
  move chosen by `best_move` until a pile is empty.
* `on_start` embeds the input validation of `NimApp.on_start`.
-/

namespace RedBlueNim

/-- Variant of the game, the validated content of the string stored by
`Rules.__init__` (either "standard" or "misere"). -/
inductive Variant
  | standard
  | misere
deriving DecidableEq, Repr

/-- Errors raised by the embedded code: the two ValueError messages of
`Rules.apply`, the RuntimeError of `Solver.best_move`, the ValueError of
`Rules.__init__`, and the rejection of non-positive piles in
`NimApp.on_start`. -/
inductive GameError
  | illegalMoveRed
  | illegalMoveBlue
  | noLegalMove
  | invalidVariant
  | invalidStartingPosition
deriving DecidableEq, Repr

/-- Embeds `class State` (frozen dataclass): a pair of pile counts. -/
structure State where
  red : Nat
  blue : Nat
deriving DecidableEq, Repr

/-- Embeds `class Move` (dataclass): a pile selector string and a take
amount.  Dataclass equality is by value, matching `DecidableEq`. -/
structure Move where
  pile : String
  take : Nat
deriving DecidableEq, Repr

/-- Embeds `Rules.legal_moves`: append R1, R2, B1, B2 under the same nested
conditions as the Python method. -/
def legal_moves (s : State) : List Move :=
  (if s.red > 0 then
    (if s.red ≥ 1 then [Move.mk "R" 1] else []) ++
      (if s.red ≥ 2 then [Move.mk "R" 2] else [])
  else []) ++
  (if s.blue > 0 then
    (if s.blue ≥ 1 then [Move.mk "B" 1] else []) ++
      (if s.blue ≥ 2 then [Move.mk "B" 2] else [])
  else [])

/-- Embeds `Rules.apply`: raise on an out-of-range take or insufficient
tokens, otherwise return the reduced state.  Any pile selector other than
"R" takes the blue branch, as in the Python `else`. -/
def apply (s : State) (m : Move) : Except GameError State :=
  if m.pile = "R" then
    if ¬(m.take = 1 ∨ m.take = 2) ∨ s.red < m.take then
      Except.error GameError.illegalMoveRed
    else
      Except.ok (State.mk (s.red - m.take) s.blue)
  else
    if ¬(m.take = 1 ∨ m.take = 2) ∨ s.blue < m.take then
      Except.error GameError.illegalMoveBlue
    else
      Except.ok (State.mk s.red (s.blue - m.take))

/-- Total version of `Rules.apply` used where the Python code applies a move
already known to be legal (inside `Solver.is_winning` and
`Solver.best_move`); agrees with `apply` on legal moves
(`apply_eq_ok_applyU`). -/
def applyU (s : State) (m : Move) : State :=
  if m.pile = "R" then State.mk (s.red - m.take) s.blue
  else State.mk s.red (s.blue - m.take)

/-- Embeds `Rules.ends_immediately`. -/
def ends_immediately (s : State) : Bool :=
  s.red == 0 || s.blue == 0

/-- Embeds `Rules.terminal_value_from_mover`. -/
def terminal_value_from_mover (v : Variant) : Bool :=
  match v with
  | Variant.standard => true
  | Variant.misere => false

/-- Embeds `Rules.terminal_value_from_next`. -/
def terminal_value_from_next (v : Variant) : Bool :=
  match v with
  | Variant.standard => false
  | Variant.misere => true

/-- Embeds the memo dictionary `Solver.memo : Dict[Tuple[int,int], bool]`. -/
abbrev Memo := List ((Nat × Nat) × Bool)

/-- Dictionary lookup on the embedded memo: the most recent binding wins. -/
def memo_lookup (memo : Memo) (k : Nat × Nat) : Option Bool :=
  match memo.find? (fun e => decide (e.1 = k)) with
  | some e => some e.2
  | none => none

/-- Pure (memo-free) value of `Solver.is_winning`, defined with a fuel
argument to make the recursion structural. -/
def is_winning_fuel (v : Variant) : Nat → State → Bool
  | 0, _ => false
  | n + 1, s =>
    if s.red = 0 ∨ s.blue = 0 then terminal_value_from_next v
    else
      (legal_moves s).any fun mv =>
        if ends_immediately (applyU s mv) then terminal_value_from_mover v
        else !(is_winning_fuel v n (applyU s mv))

/-- Pure winning value of a position: `is_winning_fuel` at sufficient fuel. -/
def win (v : Variant) (s : State) : Bool :=
  is_winning_fuel v (s.red + s.blue + 1) s

/-- Value, for the mover at `s`, of playing `mv`: the body of the loop in
`Solver.is_winning`, stated with the pure `win`. -/
def move_val (v : Variant) (s : State) (mv : Move) : Bool :=
  if ends_immediately (applyU s mv) then terminal_value_from_mover v
  else !(win v (applyU s mv))

/-- Embeds the `for mv in self.rules.legal_moves(s)` loop of
`Solver.is_winning`, parameterized by the recursive evaluator `f`: return
`True` (memoizing it) at the first move whose result is a mover win,
otherwise memoize and return `False` after the loop. -/
def win_loopF (v : Variant) (f : State → Memo → Bool × Memo) (s : State) :
    List Move → Memo → Bool × Memo
  | [], memo => (false, ((s.red, s.blue), false) :: memo)
  | mv :: rest, memo =>
    if ends_immediately (applyU s mv) then
      if terminal_value_from_mover v then (true, ((s.red, s.blue), true) :: memo)
      else win_loopF v f s rest memo
    else
      if (f (applyU s mv) memo).1 then win_loopF v f s rest (f (applyU s mv) memo).2
      else (true, ((s.red, s.blue), true) :: (f (applyU s mv) memo).2)

/-- Embeds `Solver.is_winning` with its memo dictionary threaded explicitly
and a fuel argument for the recursion depth. -/
def is_winning_fuelM (v : Variant) : Nat → State → Memo → Bool × Memo
  | 0, _, memo => (false, memo)
  | n + 1, s, memo =>
    if s.red = 0 ∨ s.blue = 0 then (terminal_value_from_next v, memo)
    else
      match memo_lookup memo (s.red, s.blue) with
      | some b => (b, memo)
      | none => win_loopF v (is_winning_fuelM v n) s (legal_moves s) memo

/-- Embeds a call `self.is_winning(s)` on a solver whose memo is `memo`:
sufficient fuel is supplied. -/
def is_winning (v : Variant) (s : State) (memo : Memo) : Bool × Memo :=
  is_winning_fuelM v (s.red + s.blue + 1) s memo

/-- Candidate order of `Solver.best_move`: take amounts (2, 1) outer, piles
("R", "B") inner. -/
def cand_order : List Move :=
  [Move.mk "R" 2, Move.mk "B" 2, Move.mk "R" 1, Move.mk "B" 1]

/-- Modelled from the spec: the acceptance test of the first pass of
`best_move` — the candidate is legal and hands the opponent either an
immediate mover win or a losing position. -/
def accept (v : Variant) (s : State) (c : Move) : Bool :=
  decide (c ∈ legal_moves s) &&
    (if ends_immediately (applyU s c) then terminal_value_from_mover v
     else !(win v (applyU s c)))

/-- Modelled from the spec: `best_move` returns the first candidate in
preference order passing the acceptance test, else the first legal
candidate in the same order, else fails.  Compared against the embedded
`best_move` in the claim theorems. -/
def best_move_spec (v : Variant) (s : State) : Except GameError Move :=
  match cand_order.find? (accept v s) with
  | some c => Except.ok c
  | none =>
    match cand_order.find? (fun c => decide (c ∈ legal_moves s)) with
    | some c => Except.ok c
    | none => Except.error GameError.noLegalMove

/-- Embeds the first pass of `Solver.best_move`: skip candidates not in
`legal`, accept an immediate mover win, skip an immediate mover loss, and
otherwise accept iff `is_winning` of the result is false (threading the
memo through the `is_winning` calls). -/
def best_pass1 (v : Variant) (s : State) (legal : List Move) :
    List Move → Memo → Option Move × Memo
  | [], memo => (none, memo)
  | c :: rest, memo =>
    if c ∈ legal then
      if ends_immediately (applyU s c) then
        if terminal_value_from_mover v then (some c, memo)
        else best_pass1 v s legal rest memo
      else
        if (is_winning v (applyU s c) memo).1 then
          best_pass1 v s legal rest (is_winning v (applyU s c) memo).2
        else (some c, (is_winning v (applyU s c) memo).2)
    else best_pass1 v s legal rest memo

/-- Embeds `Solver.best_move`: the first pass (`best_pass1`), then the
second pass returning the first legal candidate, then the RuntimeError. -/
def best_move (v : Variant) (s : State) (memo : Memo) :
    Except GameError Move × Memo :=
  match best_pass1 v s (legal_moves s) cand_order memo with
  | (some c, m2) => (Except.ok c, m2)
  | (none, m2) =>
    match cand_order.find? (fun c => decide (c ∈ legal_moves s)) with
    | some c => (Except.ok c, m2)
    | none => (Except.error GameError.noLegalMove, m2)

/-- Embeds optimal play from `NimApp.on_autoplay` restricted to the pile
state: for `n` rounds, stop if a pile is empty, otherwise apply the move
chosen by `best_move` (the memo is threaded, as the GUI keeps one solver). -/
def play_n (v : Variant) : Nat → State → Memo → State × Memo
  | 0, s, memo => (s, memo)
  | n + 1, s, memo =>
    if s.red = 0 ∨ s.blue = 0 then (s, memo)
    else
      match best_move v s memo with
      | (Except.ok mv, m2) => play_n v n (applyU s mv) m2
      | (Except.error _, m2) => (s, m2)

/-- Whitespace test of Python str.strip (ASCII range): space, tab, newline,
carriage return, vertical tab, form feed. -/
def py_isspace (c : Char) : Bool :=
  c.toNat = 32 || c.toNat = 9 || c.toNat = 10 || c.toNat = 13 ||
    c.toNat = 11 || c.toNat = 12

/-- Embeds Python str.strip: drop whitespace from both ends. -/
def py_strip (t : String) : String :=
  String.mk (((t.data.dropWhile py_isspace).reverse.dropWhile py_isspace).reverse)

/-- Embeds Python str.lower (ASCII range): lowercase every character. -/
def py_lower (t : String) : String :=
  String.mk (t.data.map Char.toLower)

/-- Embeds `Rules.__init__`: strip and lowercase the variant tag, accept
exactly "standard" and "misere". -/
def mk_rules (t : String) : Except GameError Variant :=
  if py_lower (py_strip t) = "standard" then Except.ok Variant.standard
  else if py_lower (py_strip t) = "misere" then Except.ok Variant.misere
  else Except.error GameError.invalidVariant

/-- Configuration produced by a successful `NimApp.on_start`. -/
structure Session where
  variant : Variant
  start : State

/-- Embeds the validation in `NimApp.on_start`: the pile counts are checked
to be at least 1 first (rejecting with a message box, here
`invalidStartingPosition`), then `Rules(variant)` is constructed. -/
def on_start (t : String) (r b : Int) : Except GameError Session :=
  if r < 1 ∨ b < 1 then Except.error GameError.invalidStartingPosition
  else
    match mk_rules t with
    | Except.ok v => Except.ok (Session.mk v (State.mk r.toNat b.toNat))
    | Except.error e => Except.error e

/-- Memo soundness for variant `v`: every binding has a non-terminal key and
stores the pure winning value of that key.  This invariant holds for the
empty memo of a fresh solver and is preserved by `is_winning` and
`best_move`. -/
def memo_ok (v : Variant) (memo : Memo) : Prop :=
  ∀ e ∈ memo, 0 < e.1.1 ∧ 0 < e.1.2 ∧ e.2 = win v (State.mk e.1.1 e.1.2)

/-- Weak memo invariant: every key is a non-terminal position. -/
def keys_pos (memo : Memo) : Prop :=
  ∀ e ∈ memo, 0 < e.1.1 ∧ 0 < e.1.2

/-- Membership in a conditional singleton list. -/
theorem mem_if_singleton {c : Prop} [Decidable c] {x mv : Move} :
    (mv ∈ if c then [x] else []) ↔ mv = x ∧ c := by
  split_ifs with hc <;> simp [hc]

/-- Closed form of `legal_moves`: the outer pile-nonempty guards are
subsumed by the take-amount guards. -/
theorem legal_moves_eq (s : State) : legal_moves s =
    (if 1 ≤ s.red then [Move.mk "R" 1] else []) ++
    ((if 2 ≤ s.red then [Move.mk "R" 2] else []) ++
    ((if 1 ≤ s.blue then [Move.mk "B" 1] else []) ++
    (if 2 ≤ s.blue then [Move.mk "B" 2] else []))) := by
  unfold legal_moves
  split_ifs <;> simp_all

/-- Characterization of membership in `legal_moves`. -/
theorem mem_legal_moves {s : State} {mv : Move} :
    mv ∈ legal_moves s ↔
      (mv = Move.mk "R" 1 ∧ 1 ≤ s.red) ∨ (mv = Move.mk "R" 2 ∧ 2 ≤ s.red) ∨
      (mv = Move.mk "B" 1 ∧ 1 ≤ s.blue) ∨ (mv = Move.mk "B" 2 ∧ 2 ≤ s.blue) := by
  rw [legal_moves_eq]
  simp only [List.mem_append, mem_if_singleton, or_assoc]

/-- The legal-move list is empty exactly when both piles are empty. -/
theorem legal_moves_nil_iff {s : State} :
    legal_moves s = [] ↔ s.red = 0 ∧ s.blue = 0 := by
  constructor
  · intro h
    constructor
    · by_contra hr
      have hmem : Move.mk "R" 1 ∈ legal_moves s :=
        mem_legal_moves.mpr (Or.inl ⟨rfl, by omega⟩)
      rw [h] at hmem
      exact absurd hmem (List.not_mem_nil _)
    · by_contra hb
      have hmem : Move.mk "B" 1 ∈ legal_moves s :=
        mem_legal_moves.mpr (Or.inr (Or.inr (Or.inl ⟨rfl, by omega⟩)))
      rw [h] at hmem
      exact absurd hmem (List.not_mem_nil _)
  · rintro ⟨hr, hb⟩
    unfold legal_moves
    simp [hr, hb]

/-- Every legal move strictly decreases the total token count. -/
theorem applyU_sum_lt {s : State} {mv : Move} (h : mv ∈ legal_moves s) :
    (applyU s mv).red + (applyU s mv).blue < s.red + s.blue := by
  rcases mem_legal_moves.mp h with ⟨rfl, hc⟩ | ⟨rfl, hc⟩ | ⟨rfl, hc⟩ | ⟨rfl, hc⟩ <;>
    simp [applyU] <;> omega

/-- On legal moves the checked `apply` agrees with the total `applyU`. -/
theorem apply_eq_ok_applyU {s : State} {mv : Move} (h : mv ∈ legal_moves s) :
    apply s mv = Except.ok (applyU s mv) := by
  rcases mem_legal_moves.mp h with ⟨rfl, hc⟩ | ⟨rfl, hc⟩ | ⟨rfl, hc⟩ | ⟨rfl, hc⟩ <;>
    simp [apply, applyU] <;> omega

/-- Congruence for `List.any` under pointwise equality on the list. -/
theorem list_any_congr {α : Type} {l : List α} {p q : α → Bool}
    (h : ∀ a ∈ l, p a = q a) : l.any p = l.any q := by
  induction l with
  | nil => rfl
  | cons a t ih =>
    simp only [List.any_cons]
    rw [h a (List.mem_cons_self a t), ih fun b hb => h b (List.mem_cons_of_mem a hb)]

/-- Fuel stability: any fuel above the token total computes `win`. -/
theorem is_winning_fuel_eq_win (v : Variant) :
    ∀ n s, s.red + s.blue < n → is_winning_fuel v n s = win v s := by
  intro n
  induction n using Nat.strong_induction_on with
  | _ n ih =>
    intro s hs
    obtain ⟨m, rfl⟩ : ∃ m, n = m + 1 := ⟨n - 1, by omega⟩
    show is_winning_fuel v (m + 1) s = is_winning_fuel v (s.red + s.blue + 1) s
    by_cases hterm : s.red = 0 ∨ s.blue = 0
    · simp [is_winning_fuel, hterm]
    · simp only [is_winning_fuel, if_neg hterm]
      apply list_any_congr
      intro mv hmv
      cases hend : ends_immediately (applyU s mv) with
      | true => simp [hend]
      | false =>
        have hlt := applyU_sum_lt hmv
        simp only [hend, Bool.false_eq_true, if_false]
        rw [ih m (by omega) _ (by omega),
          ih (s.red + s.blue) (by omega) _ (by omega)]

/-- Terminal-at-start positions have the start-of-turn value. -/
theorem win_terminal {v : Variant} {s : State} (h : s.red = 0 ∨ s.blue = 0) :
    win v s = terminal_value_from_next v := by
  unfold win
  simp [is_winning_fuel, h]

/-- Recursion equation of the pure winning value on non-terminal
positions. -/
theorem win_nonterminal {v : Variant} {s : State} (h1 : 0 < s.red)
    (h2 : 0 < s.blue) : win v s = (legal_moves s).any (move_val v s) := by
  have hterm : ¬(s.red = 0 ∨ s.blue = 0) := by omega
  unfold win
  simp only [is_winning_fuel, if_neg hterm]
  apply list_any_congr
  intro mv hmv
  unfold move_val
  cases hend : ends_immediately (applyU s mv) with
  | true => simp [hend]
  | false =>
    simp only [hend, Bool.false_eq_true, if_false]
    rw [is_winning_fuel_eq_win v (s.red + s.blue) _ (applyU_sum_lt hmv)]

/-- Value of a single move, spelled out. -/
theorem move_val_true_iff {v : Variant} {s : State} {mv : Move} :
    move_val v s mv = true ↔
      (ends_immediately (applyU s mv) = true ∧ terminal_value_from_mover v = true) ∨
      (ends_immediately (applyU s mv) = false ∧ win v (applyU s mv) = false) := by
  unfold move_val
  cases hend : ends_immediately (applyU s mv) <;> simp [hend]

/-- A successful memo lookup returns a stored binding. -/
theorem memo_lookup_some {memo : Memo} {k : Nat × Nat} {b : Bool}
    (h : memo_lookup memo k = some b) : (k, b) ∈ memo := by
  unfold memo_lookup at h
  cases hf : memo.find? (fun e => decide (e.1 = k)) with
  | none => rw [hf] at h; cases h
  | some e =>
    rw [hf] at h
    have hb : e.2 = b := Option.some.inj h
    have hm := List.mem_of_find?_eq_some hf
    have hp := List.find?_some hf
    have hk : e.1 = k := of_decide_eq_true hp
    have he : e = (k, b) := by
      cases e
      simp only [Prod.mk.injEq]
      exact ⟨hk, hb⟩
    rw [he] at hm
    exact hm

/-- The empty memo of a fresh solver is sound for any variant. -/
theorem memo_ok_nil (v : Variant) : memo_ok v [] := by
  intro e he
  exact absurd he (List.not_mem_nil e)

/-- Main loop invariant: if the evaluator `f` is correct below `s` and the
remaining move list still determines the winning value of `s`, the loop
computes that value and keeps the memo sound. -/
theorem win_loopF_ok {v : Variant} {f : State → Memo → Bool × Memo} {s : State}
    (h1 : 0 < s.red) (h2 : 0 < s.blue)
    (hf : ∀ t memo, memo_ok v memo → t.red + t.blue < s.red + s.blue →
      (f t memo).1 = win v t ∧ memo_ok v (f t memo).2) :
    ∀ l memo, (∀ mv ∈ l, mv ∈ legal_moves s) → memo_ok v memo →
      l.any (move_val v s) = win v s →
      (win_loopF v f s l memo).1 = win v s ∧
        memo_ok v (win_loopF v f s l memo).2 := by
  intro l
  induction l with
  | nil =>
    intro memo _ hm hprev
    simp only [List.any_nil] at hprev
    simp only [win_loopF]
    refine ⟨hprev, ?_⟩
    intro e he
    rcases List.mem_cons.mp he with rfl | he2
    · exact ⟨h1, h2, hprev⟩
    · exact hm e he2
  | cons mv rest ih =>
    intro memo hl hm hprev
    have hmv : mv ∈ legal_moves s := hl mv (List.mem_cons_self mv rest)
    have hrest : ∀ a ∈ rest, a ∈ legal_moves s :=
      fun a ha => hl a (List.mem_cons_of_mem mv ha)
    simp only [List.any_cons] at hprev
    cases hend : ends_immediately (applyU s mv) with
    | true =>
      have hmval : move_val v s mv = terminal_value_from_mover v := by
        unfold move_val
        rw [if_pos hend]
      cases htv : terminal_value_from_mover v with
      | true =>
        have hwin : win v s = true := by
          rw [← hprev, hmval, htv, Bool.true_or]
        simp only [win_loopF, hend, htv, if_true]
        refine ⟨hwin.symm, ?_⟩
        intro e he
        rcases List.mem_cons.mp he with rfl | he2
        · exact ⟨h1, h2, hwin.symm⟩
        · exact hm e he2
      | false =>
        simp only [win_loopF, hend, htv, if_true, Bool.false_eq_true, if_false]
        apply ih memo hrest hm
        rw [← hprev, hmval, htv, Bool.false_or]
    | false =>
      have hq := hf (applyU s mv) memo hm (applyU_sum_lt hmv)
      have hmval : move_val v s mv = !(win v (applyU s mv)) := by
        unfold move_val
        rw [if_neg (by simp [hend])]
      cases hw : (f (applyU s mv) memo).1 with
      | true =>
        have hwv : win v (applyU s mv) = true := by rw [← hq.1, hw]
        simp only [win_loopF, hend, Bool.false_eq_true, if_false, hw, if_true]
        apply ih (f (applyU s mv) memo).2 hrest hq.2
        rw [← hprev, hmval, hwv, Bool.not_true, Bool.false_or]
      | false =>
        have hwv : win v (applyU s mv) = false := by rw [← hq.1, hw]
        have hwin : win v s = true := by
          rw [← hprev, hmval, hwv, Bool.not_false, Bool.true_or]
        simp only [win_loopF, hend, Bool.false_eq_true, if_false, hw]
        refine ⟨hwin.symm, ?_⟩
        intro e he
        rcases List.mem_cons.mp he with rfl | he2
        · exact ⟨h1, h2, hwin.symm⟩
        · exact hq.2 e he2

/-- Correctness of the memoized evaluator: with sound memo and sufficient
fuel, it computes the pure winning value and keeps the memo sound. -/
theorem is_winning_fuelM_ok (v : Variant) :
    ∀ n s memo, memo_ok v memo → s.red + s.blue < n →
      (is_winning_fuelM v n s memo).1 = win v s ∧
        memo_ok v (is_winning_fuelM v n s memo).2 := by
  intro n
  induction n using Nat.strong_induction_on with
  | _ n ih =>
    intro s memo hm hs
    obtain ⟨m, rfl⟩ : ∃ m, n = m + 1 := ⟨n - 1, by omega⟩
    by_cases hterm : s.red = 0 ∨ s.blue = 0
    · simp only [is_winning_fuelM, if_pos hterm]
      exact ⟨(win_terminal hterm).symm, hm⟩
    · have h1 : 0 < s.red := by omega
      have h2 : 0 < s.blue := by omega
      simp only [is_winning_fuelM, if_neg hterm]
      cases hlk : memo_lookup memo (s.red, s.blue) with
      | some b =>
        have hb := hm _ (memo_lookup_some hlk)
        exact ⟨hb.2.2, hm⟩
      | none =>
        apply win_loopF_ok h1 h2 ?_ (legal_moves s) memo (fun mv h => h) hm
          (win_nonterminal h1 h2).symm
        intro t m2 hm2 hts
        exact ih m (by omega) t m2 hm2 (by omega)

/-- Correctness of `is_winning` on a sound memo. -/
theorem is_winning_ok {v : Variant} {s : State} {memo : Memo}
    (hm : memo_ok v memo) :
    (is_winning v s memo).1 = win v s ∧ memo_ok v (is_winning v s memo).2 :=
  is_winning_fuelM_ok v (s.red + s.blue + 1) s memo hm (by omega)

/-- The loop only ever inserts the key of its own (non-terminal) position:
non-terminal keys are preserved, for any evaluator preserving them. -/
theorem win_loopF_keys {v : Variant} {f : State → Memo → Bool × Memo}
    {s : State} (h1 : 0 < s.red) (h2 : 0 < s.blue)
    (hf : ∀ t memo, keys_pos memo → keys_pos (f t memo).2) :
    ∀ l memo, keys_pos memo → keys_pos (win_loopF v f s l memo).2 := by
  intro l
  induction l with
  | nil =>
    intro memo hk e he
    simp only [win_loopF] at he
    rcases List.mem_cons.mp he with rfl | he2
    · exact ⟨h1, h2⟩
    · exact hk e he2
  | cons mv rest ih =>
    intro memo hk
    cases hend : ends_immediately (applyU s mv) with
    | true =>
      cases htv : terminal_value_from_mover v with
      | true =>
        simp only [win_loopF, hend, htv, if_true]
        intro e he
        rcases List.mem_cons.mp he with rfl | he2
        · exact ⟨h1, h2⟩
        · exact hk e he2
      | false =>
        simp only [win_loopF, hend, htv, if_true, Bool.false_eq_true, if_false]
        exact ih memo hk
    | false =>
      cases hw : (f (applyU s mv) memo).1 with
      | true =>
        simp only [win_loopF, hend, Bool.false_eq_true, if_false, hw, if_true]
        exact ih _ (hf (applyU s mv) memo hk)
      | false =>
        simp only [win_loopF, hend, Bool.false_eq_true, if_false, hw]
        intro e he
        rcases List.mem_cons.mp he with rfl | he2
        · exact ⟨h1, h2⟩
        · exact hf (applyU s mv) memo hk e he2

/-- The memoized evaluator stores only non-terminal keys, at any fuel and
from any memo whose keys are non-terminal. -/
theorem is_winning_fuelM_keys (v : Variant) :
    ∀ n s memo, keys_pos memo → keys_pos (is_winning_fuelM v n s memo).2 := by
  intro n
  induction n with
  | zero =>
    intro s memo hk
    simpa only [is_winning_fuelM] using hk
  | succ m ih =>
    intro s memo hk
    by_cases hterm : s.red = 0 ∨ s.blue = 0
    · simpa only [is_winning_fuelM, if_pos hterm] using hk
    · have h1 : 0 < s.red := by omega
      have h2 : 0 < s.blue := by omega
      simp only [is_winning_fuelM, if_neg hterm]
      cases hlk : memo_lookup memo (s.red, s.blue) with
      | some b => exact hk
      | none => exact win_loopF_keys h1 h2 (fun t m2 h => ih t m2 h) _ memo hk

/-- Keys stay non-terminal across a call of `is_winning`. -/
theorem is_winning_keys {v : Variant} {s : State} {memo : Memo}
    (hk : keys_pos memo) : keys_pos (is_winning v s memo).2 :=
  is_winning_fuelM_keys v (s.red + s.blue + 1) s memo hk

/-- Accepted candidates are legal. -/
theorem accept_legal {v : Variant} {s : State} {c : Move}
    (h : accept v s c = true) : c ∈ legal_moves s := by
  unfold accept at h
  exact of_decide_eq_true (Bool.and_elim_left h)

/-- The first pass of `best_move` finds the first accepted candidate and
keeps the memo sound. -/
theorem best_pass1_ok {v : Variant} {s : State} :
    ∀ l memo, memo_ok v memo →
      (best_pass1 v s (legal_moves s) l memo).1 = l.find? (accept v s) ∧
        memo_ok v (best_pass1 v s (legal_moves s) l memo).2 := by
  intro l
  induction l with
  | nil =>
    intro memo hm
    exact ⟨rfl, hm⟩
  | cons c rest ih =>
    intro memo hm
    by_cases hcl : c ∈ legal_moves s
    · cases hend : ends_immediately (applyU s c) with
      | true =>
        cases htv : terminal_value_from_mover v with
        | true =>
          have hacc : accept v s c = true := by
            unfold accept
            simp [hcl, hend, htv]
          simp only [best_pass1, if_pos hcl, hend, htv, if_true,
            List.find?_cons_of_pos _ hacc]
          exact ⟨trivial, hm⟩
        | false =>
          have hacc : ¬(accept v s c = true) := by
            unfold accept
            simp [hcl, hend, htv]
          simp only [best_pass1, if_pos hcl, hend, htv, if_true,
            Bool.false_eq_true, if_false, List.find?_cons_of_neg _ hacc]
          exact ih memo hm
      | false =>
        have hq := @is_winning_ok v (applyU s c) memo hm
        cases hw : (is_winning v (applyU s c) memo).1 with
        | true =>
          have hwv : win v (applyU s c) = true := by rw [← hq.1, hw]
          have hacc : ¬(accept v s c = true) := by
            unfold accept
            simp [hcl, hend, hwv]
          simp only [best_pass1, if_pos hcl, hend, Bool.false_eq_true,
            if_false, hw, if_true, List.find?_cons_of_neg _ hacc]
          exact ih _ hq.2
        | false =>
          have hwv : win v (applyU s c) = false := by rw [← hq.1, hw]
          have hacc : accept v s c = true := by
            unfold accept
            simp [hcl, hend, hwv]
          simp only [best_pass1, if_pos hcl, hend, Bool.false_eq_true,
            if_false, hw, List.find?_cons_of_pos _ hacc]
          exact ⟨trivial, hq.2⟩
    · have hacc : ¬(accept v s c = true) := fun h => hcl (accept_legal h)
      simp only [best_pass1, if_neg hcl, List.find?_cons_of_neg _ hacc]
      exact ih memo hm

/-- The embedded `best_move` computes the specification policy
`best_move_spec` and keeps the memo sound. -/
theorem best_move_ok {v : Variant} {s : State} {memo : Memo}
    (hm : memo_ok v memo) :
    (best_move v s memo).1 = best_move_spec v s ∧
      memo_ok v (best_move v s memo).2 := by
  have h := best_pass1_ok (v := v) (s := s) cand_order memo hm
  unfold best_move best_move_spec
  rcases hp : best_pass1 v s (legal_moves s) cand_order memo with ⟨o, m2⟩
  rw [hp] at h
  cases o with
  | some c =>
    rw [← h.1]
    exact ⟨rfl, h.2⟩
  | none =>
    rw [← h.1]
    cases cand_order.find? (fun c => decide (c ∈ legal_moves s)) with
    | some c => exact ⟨rfl, h.2⟩
    | none => exact ⟨rfl, h.2⟩

/-- The first pass of `best_move` stores only non-terminal keys. -/
theorem best_pass1_keys {v : Variant} {s : State} {legal : List Move} :
    ∀ l memo, keys_pos memo → keys_pos (best_pass1 v s legal l memo).2 := by
  intro l
  induction l with
  | nil => intro memo hk; exact hk
  | cons c rest ih =>
    intro memo hk
    by_cases hcl : c ∈ legal
    · cases hend : ends_immediately (applyU s c) with
      | true =>
        cases htv : terminal_value_from_mover v with
        | true =>
          simp only [best_pass1, if_pos hcl, hend, htv, if_true]
          exact hk
        | false =>
          simp only [best_pass1, if_pos hcl, hend, htv, if_true,
            Bool.false_eq_true, if_false]
          exact ih memo hk
      | false =>
        cases hw : (is_winning v (applyU s c) memo).1 with
        | true =>
          simp only [best_pass1, if_pos hcl, hend, Bool.false_eq_true,
            if_false, hw, if_true]
          exact ih _ (is_winning_keys hk)
        | false =>
          simp only [best_pass1, if_pos hcl, hend, Bool.false_eq_true,
            if_false, hw]
          exact is_winning_keys hk
    · simp only [best_pass1, if_neg hcl]
      exact ih memo hk

/-- `best_move` stores only non-terminal keys. -/
theorem best_move_keys {v : Variant} {s : State} {memo : Memo}
    (hk : keys_pos memo) : keys_pos (best_move v s memo).2 := by
  unfold best_move
  rcases hp : best_pass1 v s (legal_moves s) cand_order memo with ⟨o, m2⟩
  have h2 : keys_pos m2 := by
    have := @best_pass1_keys v s (legal_moves s) cand_order memo hk
    rw [hp] at this
    exact this
  cases o with
  | some c => exact h2
  | none =>
    cases cand_order.find? (fun c => decide (c ∈ legal_moves s)) with
    | some c => exact h2
    | none => exact h2

/-- A successful specification policy result is a legal move. -/
theorem best_move_spec_ok_legal {v : Variant} {s : State} {c : Move}
    (h : best_move_spec v s = Except.ok c) : c ∈ legal_moves s := by
  unfold best_move_spec at h
  cases h1 : cand_order.find? (accept v s) with
  | some d =>
    rw [h1] at h
    have hd : d = c := Except.ok.inj h
    rw [← hd]
    exact accept_legal (List.find?_some h1)
  | none =>
    rw [h1] at h
    cases h2 : cand_order.find? (fun c => decide (c ∈ legal_moves s)) with
    | some d =>
      rw [h2] at h
      have hd : d = c := Except.ok.inj h
      have hp := List.find?_some h2
      simp only [decide_eq_true_eq] at hp
      rw [← hd]
      exact hp
    | none =>
      rw [h2] at h
      cases h

/-- On non-terminal positions the specification policy returns a move. -/
theorem best_move_spec_ok_of_nonterminal {v : Variant} {s : State}
    (h1 : 0 < s.red) : ∃ c, best_move_spec v s = Except.ok c := by
  unfold best_move_spec
  cases hf : cand_order.find? (accept v s) with
  | some c => exact ⟨c, rfl⟩
  | none =>
    cases hg : cand_order.find? (fun c => decide (c ∈ legal_moves s)) with
    | some c => exact ⟨c, rfl⟩
    | none =>
      exfalso
      have hr : Move.mk "R" 1 ∈ cand_order := by
        unfold cand_order
        simp
      have hleg : Move.mk "R" 1 ∈ legal_moves s :=
        mem_legal_moves.mpr (Or.inl ⟨rfl, by omega⟩)
      have := List.find?_eq_none.mp hg _ hr
      simp [hleg] at this

/-- The specification policy fails exactly when there is no legal move,
that is, when both piles are empty. -/
theorem best_move_spec_error_iff {v : Variant} {s : State} :
    (∃ e, best_move_spec v s = Except.error e) ↔
      s.red = 0 ∧ s.blue = 0 := by
  constructor
  · rintro ⟨e, he⟩
    by_contra hne
    have h1 : 0 < s.red ∨ 0 < s.blue := by omega
    have hleg : Move.mk "R" 1 ∈ legal_moves s ∨ Move.mk "B" 1 ∈ legal_moves s := by
      rcases h1 with h1 | h1
      · exact Or.inl (mem_legal_moves.mpr (Or.inl ⟨rfl, by omega⟩))
      · exact Or.inr (mem_legal_moves.mpr (Or.inr (Or.inr (Or.inl ⟨rfl, by omega⟩))))
    unfold best_move_spec at he
    cases hf : cand_order.find? (accept v s) with
    | some c => rw [hf] at he; cases he
    | none =>
      rw [hf] at he
      cases hg : cand_order.find? (fun c => decide (c ∈ legal_moves s)) with
      | some c => rw [hg] at he; cases he
      | none =>
        have hall := List.find?_eq_none.mp hg
        rcases hleg with hl | hl
        · have hmem : Move.mk "R" 1 ∈ cand_order := by unfold cand_order; simp
          have := hall _ hmem
          simp [hl] at this
        · have hmem : Move.mk "B" 1 ∈ cand_order := by unfold cand_order; simp
          have := hall _ hmem
          simp [hl] at this
  · rintro ⟨hr, hb⟩
    have hnil : legal_moves s = [] := legal_moves_nil_iff.mpr ⟨hr, hb⟩
    unfold best_move_spec
    have hf : cand_order.find? (accept v s) = none := by
      apply List.find?_eq_none.mpr
      intro c _ hc
      have := accept_legal hc
      rw [hnil] at this
      exact absurd this (List.not_mem_nil c)
    have hg : cand_order.find? (fun c => decide (c ∈ legal_moves s)) = none := by
      apply List.find?_eq_none.mpr
      intro c _ hc
      have := of_decide_eq_true hc
      rw [hnil] at this
      exact absurd this (List.not_mem_nil c)
    rw [hf, hg]
    exact ⟨GameError.noLegalMove, rfl⟩

/-- Bool form of the terminal test. -/
theorem ends_immediately_eq_true {s : State} :
    ends_immediately s = true ↔ s.red = 0 ∨ s.blue = 0 := by
  unfold ends_immediately
  simp

/-- Optimal play reaches a terminal state within fuel one less than the
token total bound: the total strictly decreases every round. -/
theorem play_n_reaches_terminal (v : Variant) :
    ∀ n s memo, memo_ok v memo → s.red + s.blue ≤ n + 1 →
      ((play_n v n s memo).1.red = 0 ∨ (play_n v n s memo).1.blue = 0) := by
  intro n
  induction n with
  | zero =>
    intro s memo _ hs
    simp only [play_n]
    omega
  | succ m ih =>
    intro s memo hm hs
    by_cases hterm : s.red = 0 ∨ s.blue = 0
    · simp only [play_n, if_pos hterm]
      exact hterm
    · have h1 : 0 < s.red := by omega
      have h2 : 0 < s.blue := by omega
      rcases hbm : best_move v s memo with ⟨r, m2⟩
      have hok := best_move_ok (v := v) (s := s) hm
      rw [hbm] at hok
      cases r with
      | error e =>
        exfalso
        obtain ⟨c, hc⟩ := best_move_spec_ok_of_nonterminal (v := v) h1
        rw [hc] at hok
        exact absurd hok.1 (by simp)
      | ok c =>
        have hcl : c ∈ legal_moves s := best_move_spec_ok_legal hok.1.symm
        simp only [play_n, if_neg hterm, hbm]
        apply ih (applyU s c) m2 hok.2
        have := applyU_sum_lt hcl
        omega

/-- Claim C1: for every non-terminal position (both variants, any sound
solver memo), `is_winning` returns true iff some legal move leads to a
position that either ends the game with `terminal_value_from_mover` true,
or does not end the game and has `is_winning` false. -/
theorem is_winning_matches_minimax_recursion (v : Variant) (s : State)
    (memo : Memo) (h1 : 0 < s.red) (h2 : 0 < s.blue) (hm : memo_ok v memo) :
    (is_winning v s memo).1 = true ↔
      ∃ mv ∈ legal_moves s,
        (ends_immediately (applyU s mv) = true ∧
          terminal_value_from_mover v = true) ∨
        (ends_immediately (applyU s mv) = false ∧
          (is_winning v (applyU s mv) memo).1 = false) := by
  rw [(is_winning_ok hm).1, win_nonterminal h1 h2, List.any_eq_true]
  constructor
  · rintro ⟨mv, hmv, hval⟩
    refine ⟨mv, hmv, ?_⟩
    rcases move_val_true_iff.mp hval with ⟨he, ht⟩ | ⟨he, hw⟩
    · exact Or.inl ⟨he, ht⟩
    · refine Or.inr ⟨he, ?_⟩
      rw [(is_winning_ok hm).1]
      exact hw
  · rintro ⟨mv, hmv, hcase⟩
    refine ⟨mv, hmv, ?_⟩
    apply move_val_true_iff.mpr
    rcases hcase with ⟨he, ht⟩ | ⟨he, hw⟩
    · exact Or.inl ⟨he, ht⟩
    · refine Or.inr ⟨he, ?_⟩
      rw [← (is_winning_ok hm).1]
      exact hw

/-- Witness for C1: at standard (2, 2) with a fresh memo, the recursion
characterization applies; the move R2 ends the game with a mover win, so
`is_winning` is true. -/
theorem is_winning_matches_minimax_recursion_witness :
    (is_winning Variant.standard (State.mk 2 2) []).1 = true :=
  (is_winning_matches_minimax_recursion Variant.standard (State.mk 2 2) []
      (by decide) (by decide) (memo_ok_nil Variant.standard)).mpr
    ⟨Move.mk "R" 2, by decide, Or.inl ⟨by decide, rfl⟩⟩

/-- Claim C2: on every non-terminal position, with sound memo, `best_move`
returns exactly the specification policy `best_move_spec`: the first
candidate in the preference order R2, B2, R1, B1 that is legal and either
ends the game with `terminal_value_from_mover` true or continues to a
position with `is_winning` false; failing that, the first legal candidate
in the same order. -/
theorem best_move_follows_preference_policy (v : Variant) (s : State)
    (memo : Memo) (_h1 : 0 < s.red) (_h2 : 0 < s.blue) (hm : memo_ok v memo) :
    (best_move v s memo).1 = best_move_spec v s :=
  (best_move_ok hm).1

/-- Witness for C2 at misere (2, 2) with a fresh memo. -/
theorem best_move_follows_preference_policy_witness :
    (best_move Variant.misere (State.mk 2 2) []).1 =
      best_move_spec Variant.misere (State.mk 2 2) :=
  best_move_follows_preference_policy Variant.misere (State.mk 2 2) []
    (by decide) (by decide) (memo_ok_nil Variant.misere)

/-- Claim C3: on a terminal-at-start position `is_winning` returns
`terminal_value_from_next` with the memo unchanged, and every call of
`is_winning` and of `best_move` preserves the invariant that all memo keys
are non-terminal positions. -/
theorem memo_stores_only_nonterminal_positions (v : Variant) (s : State)
    (memo : Memo) (hk : keys_pos memo) :
    (s.red = 0 ∨ s.blue = 0 →
      is_winning v s memo = (terminal_value_from_next v, memo)) ∧
    keys_pos (is_winning v s memo).2 ∧
    keys_pos (best_move v s memo).2 := by
  refine ⟨?_, is_winning_keys hk, best_move_keys hk⟩
  intro hterm
  unfold is_winning
  simp only [is_winning_fuelM, if_pos hterm]

/-- Witness for C3 at the terminal position (0, 3) and a one-entry memo. -/
theorem memo_stores_only_nonterminal_positions_witness :
    is_winning Variant.standard (State.mk 0 3) [((2, 2), true)] =
      (terminal_value_from_next Variant.standard, [((2, 2), true)]) ∧
    keys_pos (is_winning Variant.standard (State.mk 0 3) [((2, 2), true)]).2 ∧
    keys_pos (best_move Variant.standard (State.mk 0 3) [((2, 2), true)]).2 := by
  have hk : keys_pos ([((2, 2), true)] : Memo) := by
    intro e he
    rw [List.mem_singleton] at he
    subst he
    exact ⟨by decide, by decide⟩
  have h := memo_stores_only_nonterminal_positions Variant.standard
    (State.mk 0 3) [((2, 2), true)] hk
  exact ⟨h.1 (Or.inl rfl), h.2.1, h.2.2⟩

/-- Claim C4: for both variants, `terminal_value_from_mover` is the
negation of `terminal_value_from_next`; it is true under standard and
false under misere. -/
theorem terminal_values_are_complementary :
    ∀ v : Variant,
      terminal_value_from_mover v = !(terminal_value_from_next v) ∧
      terminal_value_from_mover Variant.standard = true ∧
      terminal_value_from_mover Variant.misere = false := by
  intro v
  cases v <;> exact ⟨rfl, rfl, rfl⟩

/-- Counterexample to C5 as stated: (0, 5) is terminal-at-start (red = 0),
yet `best_move` does not fail there — it returns the move B2 (whose
application ends the game at once). -/
theorem best_move_on_terminal_counterexample :
    ((State.mk 0 5).red = 0 ∨ (State.mk 0 5).blue = 0) ∧
    (best_move Variant.standard (State.mk 0 5) []).1 =
      Except.ok (Move.mk "B" 2) ∧
    ¬∃ e, (best_move Variant.standard (State.mk 0 5) []).1 =
      Except.error e := by
  refine ⟨Or.inl rfl, rfl, ?_⟩
  rintro ⟨e, he⟩
  rw [show (best_move Variant.standard (State.mk 0 5) []).1 =
      Except.ok (Move.mk "B" 2) from rfl] at he
  exact Except.noConfusion he

/-- Claim C5 (amended): with a sound memo, `best_move` fails exactly when
there is no legal move at all, that is, when red = 0 and blue = 0; on
every non-terminal position it returns a move without failing. -/
theorem best_move_fails_iff_no_legal_moves (v : Variant) (s : State)
    (memo : Memo) (hm : memo_ok v memo) :
    ((∃ e, (best_move v s memo).1 = Except.error e) ↔
      (s.red = 0 ∧ s.blue = 0)) ∧
    (0 < s.red → 0 < s.blue → ∃ mv, (best_move v s memo).1 = Except.ok mv) := by
  have hbm := (@best_move_ok v s memo hm).1
  constructor
  · rw [hbm]
    exact best_move_spec_error_iff
  · intro h1 h2
    obtain ⟨c, hc⟩ := best_move_spec_ok_of_nonterminal (v := v) h1
    exact ⟨c, by rw [hbm, hc]⟩

/-- Witness for C5 (amended): at (0, 0), where no move is legal,
`best_move` does fail. -/
theorem best_move_fails_iff_no_legal_moves_witness :
    ∃ e, (best_move Variant.standard (State.mk 0 0) []).1 = Except.error e :=
  (best_move_fails_iff_no_legal_moves Variant.standard (State.mk 0 0) []
      (memo_ok_nil Variant.standard)).1.mpr ⟨rfl, rfl⟩

/-- Claim C6: `apply` fails exactly when the take is not 1 or 2 or the
selected pile (red for "R", blue otherwise) holds fewer tokens than the
take; on success the selected pile shrinks by exactly the take and the
other pile is unchanged (stated additively over Nat, so no negative count
can arise); `apply` builds a fresh state and never mutates its input. -/
theorem apply_validates_take_and_pile (s : State) (m : Move) :
    ((∃ e, apply s m = Except.error e) ↔
      (¬(m.take = 1 ∨ m.take = 2) ∨
        (if m.pile = "R" then s.red else s.blue) < m.take)) ∧
    (∀ t, apply s m = Except.ok t →
      (m.pile = "R" → t.red + m.take = s.red ∧ t.blue = s.blue) ∧
      (m.pile ≠ "R" → t.blue + m.take = s.blue ∧ t.red = s.red)) := by
  unfold apply
  by_cases hp : m.pile = "R"
  · simp only [if_pos hp]
    by_cases hc : ¬(m.take = 1 ∨ m.take = 2) ∨ s.red < m.take
    · simp only [if_pos hc]
      refine ⟨⟨fun _ => hc, fun _ => ⟨GameError.illegalMoveRed, rfl⟩⟩, ?_⟩
      intro t ht
      exact Except.noConfusion ht
    · simp only [if_neg hc]
      refine ⟨⟨?_, fun h => absurd h hc⟩, ?_⟩
      · rintro ⟨e, he⟩
        exact Except.noConfusion he
      · intro t ht
        have ht2 : State.mk (s.red - m.take) s.blue = t := Except.ok.inj ht
        subst ht2
        refine ⟨fun _ => ⟨?_, rfl⟩, fun h => absurd hp h⟩
        show s.red - m.take + m.take = s.red
        omega
  · simp only [if_neg hp]
    by_cases hc : ¬(m.take = 1 ∨ m.take = 2) ∨ s.blue < m.take
    · simp only [if_pos hc]
      refine ⟨⟨fun _ => hc, fun _ => ⟨GameError.illegalMoveBlue, rfl⟩⟩, ?_⟩
      intro t ht
      exact Except.noConfusion ht
    · simp only [if_neg hc]
      refine ⟨⟨?_, fun h => absurd h hc⟩, ?_⟩
      · rintro ⟨e, he⟩
        exact Except.noConfusion he
      · intro t ht
        have ht2 : State.mk s.red (s.blue - m.take) = t := Except.ok.inj ht
        subst ht2
        refine ⟨fun h => absurd h hp, fun _ => ⟨?_, rfl⟩⟩
        show s.blue - m.take + m.take = s.blue
        omega

/-- Witness for C6: taking 2 from red at (3, 2) succeeds and shrinks red
by exactly 2, leaving blue unchanged. -/
theorem apply_validates_take_and_pile_witness :
    apply (State.mk 3 2) (Move.mk "R" 2) = Except.ok (State.mk 1 2) ∧
    (State.mk 1 2).red + 2 = 3 ∧ (State.mk 1 2).blue = 2 := by
  refine ⟨rfl, ?_⟩
  have h := (apply_validates_take_and_pile (State.mk 3 2) (Move.mk "R" 2)).2
    (State.mk 1 2) rfl
  exact h.1 rfl

/-- Claim C7: from any starting position with both piles at least 1 and a
sound memo, repeated `best_move` play reaches a terminal state (a pile
emptied) within red + blue moves, and every legal move strictly decreases
the token total. -/
theorem optimal_play_terminates (v : Variant) (s : State) (memo : Memo)
    (_h1 : 1 ≤ s.red) (_h2 : 1 ≤ s.blue) (hm : memo_ok v memo) :
    ends_immediately (play_n v (s.red + s.blue) s memo).1 = true ∧
    ∀ t : State, ∀ mv ∈ legal_moves t,
      (applyU t mv).red + (applyU t mv).blue < t.red + t.blue := by
  constructor
  · rw [ends_immediately_eq_true]
    apply play_n_reaches_terminal v (s.red + s.blue) s memo hm
    omega
  · intro t mv hmv
    exact applyU_sum_lt hmv

/-- Witness for C7: from (2, 2) under the standard variant, play with a
fresh solver reaches a terminal state within 4 moves. -/
theorem optimal_play_terminates_witness :
    ends_immediately (play_n Variant.standard 4 (State.mk 2 2) []).1 = true :=
  (optimal_play_terminates Variant.standard (State.mk 2 2) []
      (by decide) (by decide) (memo_ok_nil Variant.standard)).1

/-- Claim C8: `best_move` depends only on the variant and the position —
with any sound memo (as produced by prior `is_winning`/`best_move` calls
under the same variant, the empty memo included) it returns the same
result as with a freshly constructed solver. -/
theorem best_move_independent_of_memo (v : Variant) (s : State)
    (memo : Memo) (_h1 : 0 < s.red) (_h2 : 0 < s.blue) (hm : memo_ok v memo) :
    (best_move v s memo).1 = (best_move v s []).1 := by
  rw [(best_move_ok hm).1, (best_move_ok (memo_ok_nil v)).1]

/-- Witness for C8 at standard (3, 4) with a warm one-entry memo. -/
theorem best_move_independent_of_memo_witness :
    (best_move Variant.standard (State.mk 3 4) [((1, 1), true)]).1 =
      (best_move Variant.standard (State.mk 3 4) []).1 := by
  apply best_move_independent_of_memo Variant.standard (State.mk 3 4)
    [((1, 1), true)] (by decide) (by decide)
  intro e he
  rw [List.mem_singleton] at he
  subst he
  exact ⟨by decide, by decide, by decide⟩

/-- Claim C9: a variant tag is accepted exactly when it equals standard or
misere after stripping whitespace and lowercasing (any other string fails
with the invalid-variant error), and a starting position with red or blue
below 1 is rejected with the invalid-starting-position error, producing no
session. -/
theorem construction_validates_variant_and_piles (t : String) (r b : Int) :
    ((∃ v, mk_rules t = Except.ok v) ↔
      (py_lower (py_strip t) = "standard" ∨ py_lower (py_strip t) = "misere")) ∧
    (¬(py_lower (py_strip t) = "standard" ∨ py_lower (py_strip t) = "misere") →
      mk_rules t = Except.error GameError.invalidVariant) ∧
    (r < 1 ∨ b < 1 →
      on_start t r b = Except.error GameError.invalidStartingPosition) := by
  refine ⟨?_, ?_, ?_⟩
  · unfold mk_rules
    by_cases hs : py_lower (py_strip t) = "standard"
    · simp [hs]
    · by_cases hm : py_lower (py_strip t) = "misere"
      · simp [hs, hm]
      · simp [hs, hm]
  · intro h
    unfold mk_rules
    rw [if_neg (fun hh => h (Or.inl hh)), if_neg (fun hh => h (Or.inr hh))]
  · intro h
    unfold on_start
    rw [if_pos h]

/-- Witness for C9: a padded mixed-case misere tag is accepted, and a
zero red pile is rejected before session creation. -/
theorem construction_validates_variant_and_piles_witness :
    (∃ w, mk_rules "  MISERE " = Except.ok w) ∧
    on_start "standard" 0 3 = Except.error GameError.invalidStartingPosition := by
  constructor
  · exact (construction_validates_variant_and_piles "  MISERE " 0 3).1.mpr
      (Or.inr (by decide))
  · exact (construction_validates_variant_and_piles "standard" 0 3).2.2
      (Or.inl (by decide))

/-- Claim C10: `apply` never validates the pile selector — every move whose
pile is any value other than "R" is processed as a blue-pile move, with
legality checked against and subtraction performed on the blue count. -/
theorem apply_treats_unknown_pile_as_blue (s : State) (m : Move)
    (hp : m.pile ≠ "R") :
    apply s m = apply s (Move.mk "B" m.take) ∧
    (¬(m.take = 1 ∨ m.take = 2) ∨ s.blue < m.take →
      apply s m = Except.error GameError.illegalMoveBlue) ∧
    ((m.take = 1 ∨ m.take = 2) → m.take ≤ s.blue →
      apply s m = Except.ok (State.mk s.red (s.blue - m.take))) := by
  have hB : ("B" : String) ≠ "R" := by decide
  unfold apply
  simp only [if_neg hp, if_neg hB]
  refine ⟨trivial, ?_, ?_⟩
  · intro h
    rw [if_pos h]
  · intro h1 h2
    rw [if_neg (by omega)]

/-- Witness for C10: the unknown pile tag "X" is handled as blue — one
token is removed from blue. -/
theorem apply_treats_unknown_pile_as_blue_witness :
    apply (State.mk 3 4) (Move.mk "X" 1) = Except.ok (State.mk 3 3) :=
  (apply_treats_unknown_pile_as_blue (State.mk 3 4) (Move.mk "X" 1)
      (by decide)).2.2 (Or.inl rfl) (by decide)

end RedBlueNim
